import Mathlib

/-!
Verification of the fast-field codec library (`fastfield_codecs`).

The statistics component (`FastFieldStats`) is translated directly from
`src/fastfield_codecs/src/lib.rs`.  The three concrete codecs (bit-packed,
linear interpolation, multi-linear interpolation) and the selector are not
part of the provided sources (only their trait declarations, tests and the
test helper `stats_from_vec` are), so they are modelled from the spec
(sections 4.3-4.6) as indicated on each definition.

Machine integers are modelled as `ℕ` with explicit `% 2 ^ 64` where u64
wrap-around matters; the f32 compression-ratio estimates are modelled as
exact rationals, since the spec fixes them as quotients of bit counts by
64 plus small constant biases (section 4.7-4.8).
-/

set_option maxRecDepth 4000

/-- Statistics over a column of u64 values, stored in the fast field footer.
Translated from `struct FastFieldStats` in `src/fastfield_codecs/src/lib.rs`. -/
structure FastFieldStats where
  min_value : ℕ
  max_value : ℕ
  num_vals : ℕ
deriving DecidableEq, Repr

/-- The `Default` derive on `FastFieldStats`: the zero tuple. -/
def FastFieldStats.zero : FastFieldStats := ⟨0, 0, 0⟩

/-- Translated from `FastFieldStats::record`: extend the running statistics
by one value (`num_vals += 1`, fold `min` and `max`). -/
def FastFieldStats.record (s : FastFieldStats) (val : ℕ) : FastFieldStats :=
  { num_vals := s.num_vals + 1
    min_value := min s.min_value val
    max_value := max s.max_value val }

/-- Translated from `FastFieldStats::compute`: the zero tuple on an empty
slice, otherwise seed min/max/count from the first element and fold the
remainder with `record`. -/
def FastFieldStats.compute (vals : List ℕ) : FastFieldStats :=
  match vals with
  | [] => FastFieldStats.zero
  | first_val :: rest => rest.foldl FastFieldStats.record ⟨first_val, first_val, 1⟩

/-- Translated from the test helper `stats_from_vec`: min/max via iterator
min/max with `unwrap_or(0)`, count via slice length. -/
def stats_from_vec (data : List ℕ) : FastFieldStats :=
  { min_value := data.min?.getD 0
    max_value := data.max?.getD 0
    num_vals := data.length }

section FoldMinMax

variable {α : Type} [LinearOrder α]

theorem foldl_min_le_seed : ∀ (l : List α) (a : α), l.foldl min a ≤ a := by
  intro l
  induction l with
  | nil => intro a; exact le_rfl
  | cons x xs ih =>
    intro a
    exact le_trans (ih (min a x)) (min_le_left a x)

theorem foldl_min_le_of_mem {b : α} : ∀ {l : List α}, b ∈ l → ∀ a, l.foldl min a ≤ b := by
  intro l
  induction l with
  | nil => intro h; cases h
  | cons x xs ih =>
    intro h a
    rcases List.mem_cons.1 h with h | h
    · subst h
      exact le_trans (foldl_min_le_seed xs (min a b)) (min_le_right a b)
    · exact ih h (min a x)

theorem le_foldl_min {c : α} : ∀ {l : List α} {a : α}, c ≤ a → (∀ b ∈ l, c ≤ b) →
    c ≤ l.foldl min a := by
  intro l
  induction l with
  | nil => intro a h _; exact h
  | cons x xs ih =>
    intro a h hl
    exact ih (le_min h (hl x (List.mem_cons_self x _))) fun b hb => hl b (List.mem_cons_of_mem _ hb)

theorem foldl_min_eq_seed_or_mem : ∀ (l : List α) (a : α),
    l.foldl min a = a ∨ l.foldl min a ∈ l := by
  intro l
  induction l with
  | nil => intro a; exact Or.inl rfl
  | cons x xs ih =>
    intro a
    simp only [List.foldl_cons]
    rcases ih (min a x) with h | h
    · rcases min_cases a x with ⟨hx, _⟩ | ⟨hx, _⟩
      · exact Or.inl (h.trans hx)
      · exact Or.inr (by rw [h, hx]; exact List.mem_cons_self x _)
    · exact Or.inr (List.mem_cons_of_mem _ h)

theorem le_foldl_max_seed : ∀ (l : List α) (a : α), a ≤ l.foldl max a := by
  intro l
  induction l with
  | nil => intro a; exact le_rfl
  | cons x xs ih =>
    intro a
    exact le_trans (le_max_left a x) (ih (max a x))

theorem le_foldl_max_of_mem {b : α} : ∀ {l : List α}, b ∈ l → ∀ a, b ≤ l.foldl max a := by
  intro l
  induction l with
  | nil => intro h; cases h
  | cons x xs ih =>
    intro h a
    rcases List.mem_cons.1 h with h | h
    · subst h
      exact le_trans (le_max_right a b) (le_foldl_max_seed xs (max a b))
    · exact ih h (max a x)

theorem foldl_max_le {c : α} : ∀ {l : List α} {a : α}, a ≤ c → (∀ b ∈ l, b ≤ c) →
    l.foldl max a ≤ c := by
  intro l
  induction l with
  | nil => intro a h _; exact h
  | cons x xs ih =>
    intro a h hl
    exact ih (max_le h (hl x (List.mem_cons_self x _))) fun b hb => hl b (List.mem_cons_of_mem _ hb)

theorem foldl_max_eq_seed_or_mem : ∀ (l : List α) (a : α),
    l.foldl max a = a ∨ l.foldl max a ∈ l := by
  intro l
  induction l with
  | nil => intro a; exact Or.inl rfl
  | cons x xs ih =>
    intro a
    simp only [List.foldl_cons]
    rcases ih (max a x) with h | h
    · rcases max_cases a x with ⟨hx, _⟩ | ⟨hx, _⟩
      · exact Or.inl (h.trans hx)
      · exact Or.inr (by rw [h, hx]; exact List.mem_cons_self x _)
    · exact Or.inr (List.mem_cons_of_mem _ h)

end FoldMinMax

/-- Folding `record` over a list acts independently on the three fields:
`min`-fold, `max`-fold and length count. -/
theorem foldl_record_eq (l : List ℕ) : ∀ s : FastFieldStats,
    l.foldl FastFieldStats.record s =
      ⟨l.foldl min s.min_value, l.foldl max s.max_value, s.num_vals + l.length⟩ := by
  induction l with
  | nil => intro s; simp
  | cons x xs ih =>
    intro s
    simp only [List.foldl_cons, ih, FastFieldStats.record, List.length_cons]
    exact congrArg _ (by omega)

theorem compute_nil : FastFieldStats.compute [] = ⟨0, 0, 0⟩ := rfl

theorem compute_cons (v : ℕ) (rest : List ℕ) :
    FastFieldStats.compute (v :: rest) =
      ⟨rest.foldl min v, rest.foldl max v, 1 + rest.length⟩ := by
  simp only [FastFieldStats.compute, foldl_record_eq]

theorem compute_num_vals (vals : List ℕ) :
    (FastFieldStats.compute vals).num_vals = vals.length := by
  cases vals with
  | nil => rfl
  | cons v rest => rw [compute_cons]; simp [Nat.add_comm]

theorem compute_min_le {vals : List ℕ} {v : ℕ} (h : v ∈ vals) :
    (FastFieldStats.compute vals).min_value ≤ v := by
  cases vals with
  | nil => cases h
  | cons x rest =>
    rw [compute_cons]
    rcases List.mem_cons.1 h with h | h
    · subst h; exact foldl_min_le_seed rest v
    · exact foldl_min_le_of_mem h x

theorem compute_le_max {vals : List ℕ} {v : ℕ} (h : v ∈ vals) :
    v ≤ (FastFieldStats.compute vals).max_value := by
  cases vals with
  | nil => cases h
  | cons x rest =>
    rw [compute_cons]
    rcases List.mem_cons.1 h with h | h
    · subst h; exact le_foldl_max_seed rest v
    · exact le_foldl_max_of_mem h x

theorem compute_min_mem {vals : List ℕ} (h : vals ≠ []) :
    (FastFieldStats.compute vals).min_value ∈ vals := by
  cases vals with
  | nil => exact absurd rfl h
  | cons x rest =>
    rw [compute_cons]
    show rest.foldl min x ∈ x :: rest
    rcases foldl_min_eq_seed_or_mem rest x with h' | h'
    · rw [h']; exact List.mem_cons_self x _
    · exact List.mem_cons_of_mem _ h'

theorem compute_max_mem {vals : List ℕ} (h : vals ≠ []) :
    (FastFieldStats.compute vals).max_value ∈ vals := by
  cases vals with
  | nil => exact absurd rfl h
  | cons x rest =>
    rw [compute_cons]
    show rest.foldl max x ∈ x :: rest
    rcases foldl_max_eq_seed_or_mem rest x with h' | h'
    · rw [h']; exact List.mem_cons_self x _
    · exact List.mem_cons_of_mem _ h'

/-- Field-wise characterisation of equality of statistics tuples. -/
theorem FastFieldStats.ext_fields {s t : FastFieldStats}
    (h1 : s.min_value = t.min_value) (h2 : s.max_value = t.max_value)
    (h3 : s.num_vals = t.num_vals) : s = t := by
  cases s; cases t; simp_all

/-- The test helper `stats_from_vec` agrees with `FastFieldStats::compute`. -/
theorem stats_from_vec_eq_compute (l : List ℕ) :
    stats_from_vec l = FastFieldStats.compute l := by
  cases l with
  | nil => rfl
  | cons v rest =>
    rw [compute_cons]
    simp only [stats_from_vec, List.min?_cons', List.max?_cons', Option.getD_some,
      List.length_cons]
    exact FastFieldStats.ext_fields rfl rfl (by dsimp only; omega)

/-- Claim C2: `FastFieldStats::compute` returns `num_vals` equal to the slice
length; on a non-empty slice `min_value` is the minimum and `max_value` the
maximum of the slice (so `min_value ≤ v ≤ max_value` for every element), and
on the empty slice it returns the zero tuple. -/
theorem c2_compute_stats (vals : List ℕ) :
    (FastFieldStats.compute vals).num_vals = vals.length ∧
    (vals ≠ [] →
      (FastFieldStats.compute vals).min_value ∈ vals ∧
      (FastFieldStats.compute vals).max_value ∈ vals ∧
      ∀ v ∈ vals, (FastFieldStats.compute vals).min_value ≤ v ∧
        v ≤ (FastFieldStats.compute vals).max_value) ∧
    (vals = [] → FastFieldStats.compute vals = ⟨0, 0, 0⟩) := by
  refine ⟨compute_num_vals vals, fun h => ⟨compute_min_mem h, compute_max_mem h, ?_⟩,
    fun h => by subst h; rfl⟩
  intro v hv
  exact ⟨compute_min_le hv, compute_le_max hv⟩

/-- Witness for C2 at the column `[3, 1, 2]`. -/
theorem c2_compute_stats_witness :
    (FastFieldStats.compute [3, 1, 2]).num_vals = [3, 1, 2].length ∧
    (FastFieldStats.compute [3, 1, 2]).min_value ∈ [3, 1, 2] ∧
    (FastFieldStats.compute [3, 1, 2]).max_value ∈ [3, 1, 2] ∧
    ∀ v ∈ [3, 1, 2], (FastFieldStats.compute [3, 1, 2]).min_value ≤ v ∧
      v ≤ (FastFieldStats.compute [3, 1, 2]).max_value :=
  ⟨(c2_compute_stats [3, 1, 2]).1, (c2_compute_stats [3, 1, 2]).2.1 (by decide)⟩

/-- Counterexample to claim C3 as stated: on the empty slice, `record`
applied to the zero tuple leaves `min_value = 0`, while recomputing the
statistics of `[1]` yields `min_value = 1`. -/
theorem c3_counterexample :
    FastFieldStats.record (FastFieldStats.compute []) 1 ≠
      FastFieldStats.compute ([] ++ [1]) := by
  decide

/-- Claim C3 (amended): for every NON-EMPTY slice `vals` and value `v`,
`record v` applied to `compute vals` equals `compute (vals ++ [v])`. -/
theorem c3_record_extends (vals : List ℕ) (v : ℕ) (h : vals ≠ []) :
    FastFieldStats.record (FastFieldStats.compute vals) v =
      FastFieldStats.compute (vals ++ [v]) := by
  cases vals with
  | nil => exact absurd rfl h
  | cons x rest =>
    rw [List.cons_append, compute_cons, compute_cons]
    simp only [FastFieldStats.record, List.foldl_append, List.foldl_cons, List.foldl_nil,
      List.length_append, List.length_cons, List.length_nil]
    exact FastFieldStats.ext_fields rfl rfl (by dsimp only; omega)

/-- Witness for the amended C3 at `vals = [5]`, `v = 3`. -/
theorem c3_record_extends_witness :
    ([5] : List ℕ) ≠ [] ∧
    FastFieldStats.record (FastFieldStats.compute [5]) 3 =
      FastFieldStats.compute ([5] ++ [3]) :=
  ⟨by decide, c3_record_extends [5] 3 (by decide)⟩

/-- Claim C9: `FastFieldStats::compute` is invariant under permutation of its
input slice. -/
theorem c9_compute_perm (l₁ l₂ : List ℕ) (p : l₁.Perm l₂) :
    FastFieldStats.compute l₁ = FastFieldStats.compute l₂ := by
  cases l₁ with
  | nil =>
    rw [← p.nil_eq]
  | cons x rest =>
    have h₁ : (x :: rest) ≠ [] := by simp
    have h₂ : l₂ ≠ [] := by
      intro h
      subst h
      exact h₁ p.eq_nil
    refine FastFieldStats.ext_fields ?_ ?_ ?_
    · exact le_antisymm
        (compute_min_le (p.mem_iff.2 (compute_min_mem h₂)))
        (compute_min_le (p.mem_iff.1 (compute_min_mem h₁)))
    · exact le_antisymm
        (compute_le_max (p.mem_iff.1 (compute_max_mem h₁)))
        (compute_le_max (p.mem_iff.2 (compute_max_mem h₂)))
    · rw [compute_num_vals, compute_num_vals, p.length_eq]

/-- Witness for C9 at the permutation `[1, 2] ~ [2, 1]`. -/
theorem c9_compute_perm_witness :
    ([1, 2] : List ℕ).Perm [2, 1] ∧
    FastFieldStats.compute [1, 2] = FastFieldStats.compute [2, 1] :=
  ⟨by decide, c9_compute_perm [1, 2] [2, 1] (by decide)⟩

/-- Claim C10: `min_value ≤ max_value` is an invariant of `FastFieldStats`:
it holds for the zero tuple and for `compute` on every slice, and `record`
preserves it. -/
theorem c10_min_le_max_invariant :
    FastFieldStats.zero.min_value ≤ FastFieldStats.zero.max_value ∧
    (∀ vals : List ℕ,
      (FastFieldStats.compute vals).min_value ≤ (FastFieldStats.compute vals).max_value) ∧
    (∀ (s : FastFieldStats) (v : ℕ), s.min_value ≤ s.max_value →
      (s.record v).min_value ≤ (s.record v).max_value) := by
  refine ⟨le_rfl, fun vals => ?_, fun s v h => ?_⟩
  · cases vals with
    | nil => exact le_rfl
    | cons x rest =>
      rw [compute_cons]
      exact le_trans (foldl_min_le_seed rest x) (le_foldl_max_seed rest x)
  · exact le_trans (min_le_left _ _) (le_trans h (le_max_left _ _))

/-- Witness for C10's `record` preservation at the tuple `{1, 5, 2}` and
value `7`. -/
theorem c10_min_le_max_invariant_witness :
    ((⟨1, 5, 2⟩ : FastFieldStats).min_value ≤ (⟨1, 5, 2⟩ : FastFieldStats).max_value) ∧
    ((FastFieldStats.record ⟨1, 5, 2⟩ 7).min_value ≤
      (FastFieldStats.record ⟨1, 5, 2⟩ 7).max_value) :=
  ⟨by decide, c10_min_le_max_invariant.2.2 ⟨1, 5, 2⟩ 7 (by decide)⟩

/-- Modelled from the spec: `ceil(log2(n + 1))`, the number of bits needed to
represent `n`, with `bit_width = 0` when `n = 0` (spec section 4.3).  Defined
with an explicit fuel argument so that it evaluates by kernel reduction. -/
def bitWidthAux : ℕ → ℕ → ℕ
  | 0, _ => 0
  | fuel + 1, n => if n = 0 then 0 else bitWidthAux fuel (n / 2) + 1

/-- Modelled from the spec: the bit width of a value (spec section 4.3). -/
def bitWidth (n : ℕ) : ℕ := bitWidthAux n n

theorem bitWidthAux_le_iff : ∀ (fuel n k : ℕ), n ≤ fuel →
    (bitWidthAux fuel n ≤ k ↔ n < 2 ^ k) := by
  intro fuel
  induction fuel with
  | zero =>
    intro n k hn
    interval_cases n
    simp [bitWidthAux, Nat.pos_pow_of_pos]
  | succ fuel ih =>
    intro n k hn
    by_cases h0 : n = 0
    · subst h0
      simp [bitWidthAux, Nat.pos_pow_of_pos]
    · rw [show bitWidthAux (fuel + 1) n = bitWidthAux fuel (n / 2) + 1 by
        simp [bitWidthAux, h0]]
      cases k with
      | zero =>
        simp only [pow_zero]
        omega
      | succ k =>
        rw [Nat.add_le_add_iff_right, ih (n / 2) k (by omega)]
        rw [Nat.div_lt_iff_lt_mul (by norm_num : 0 < 2), ← pow_succ]

theorem bitWidth_le_iff (n k : ℕ) : bitWidth n ≤ k ↔ n < 2 ^ k :=
  bitWidthAux_le_iff n n k le_rfl

theorem lt_two_pow_bitWidth (n : ℕ) : n < 2 ^ bitWidth n :=
  (bitWidth_le_iff n (bitWidth n)).1 le_rfl

/-- Modelled from the spec: a little-endian bit-packed stream holding each
list element in `w` bits, represented as the natural number whose base-`2^w`
digits are the elements (spec section 4.3, "packed bits"). -/
def pack (w : ℕ) : List ℕ → ℕ
  | [] => 0
  | x :: xs => x + 2 ^ w * pack w xs

/-- Modelled from the spec: read the `w`-bit group at index `i` from a
bit-packed stream (spec section 4.3, "Read"). -/
def unpack (w packed i : ℕ) : ℕ := packed / 2 ^ (w * i) % 2 ^ w

/-- Reading group `i` of a packed stream returns the `i`-th input element,
provided every element fits in `w` bits. -/
theorem unpack_pack (w : ℕ) : ∀ (xs : List ℕ), (∀ x ∈ xs, x < 2 ^ w) →
    ∀ i, i < xs.length → unpack w (pack w xs) i = xs.getD i 0 := by
  intro xs
  induction xs with
  | nil => intro _ i hi; cases hi
  | cons x xs ih =>
    intro hb i hi
    have hx : x < 2 ^ w := hb x (List.mem_cons_self x _)
    cases i with
    | zero =>
      simp only [unpack, pack, Nat.mul_zero, pow_zero, Nat.div_one, List.getD_cons_zero]
      rw [Nat.add_mul_mod_self_left, Nat.mod_eq_of_lt hx]
    | succ i =>
      have hstep : (x + 2 ^ w * pack w xs) / 2 ^ (w * (i + 1)) =
          pack w xs / 2 ^ (w * i) := by
        rw [show w * (i + 1) = w + w * i by ring, pow_add,
          ← Nat.div_div_eq_div_mul]
        congr 1
        rw [Nat.add_mul_div_left _ _ (Nat.pos_pow_of_pos w (by norm_num)),
          Nat.div_eq_of_lt hx, Nat.zero_add]
      simp only [unpack, pack, hstep, List.getD_cons_succ]
      exact ih (fun y hy => hb y (List.mem_cons_of_mem _ hy)) i
        (by simpa using Nat.lt_of_succ_lt_succ hi)

theorem stats_min_le {l : List ℕ} {v : ℕ} (h : v ∈ l) :
    (stats_from_vec l).min_value ≤ v := by
  rw [stats_from_vec_eq_compute]; exact compute_min_le h

theorem stats_le_max {l : List ℕ} {v : ℕ} (h : v ∈ l) :
    v ≤ (stats_from_vec l).max_value := by
  rw [stats_from_vec_eq_compute]; exact compute_le_max h

theorem stats_min_lt_u64 {l : List ℕ} (h64 : ∀ v ∈ l, v < 2 ^ 64) :
    (stats_from_vec l).min_value < 2 ^ 64 := by
  cases l with
  | nil => norm_num [stats_from_vec]
  | cons x rest =>
    rw [stats_from_vec_eq_compute]
    exact h64 _ (compute_min_mem (by simp))

theorem stats_max_lt_u64 {l : List ℕ} (h64 : ∀ v ∈ l, v < 2 ^ 64) :
    (stats_from_vec l).max_value < 2 ^ 64 := by
  cases l with
  | nil => norm_num [stats_from_vec]
  | cons x rest =>
    rw [stats_from_vec_eq_compute]
    exact h64 _ (compute_max_mem (by simp))

/-- Modelled from the spec: the bit-packed codec body
`<min:u64 LE> <bit_width:u8> <packed bits>` (spec section 4.3), with the byte
buffer modelled as the natural number having those fields as successive
little-endian digit groups.  Each value is stored as `v - min` in
`bit_width = ceil(log2(max - min + 1))` bits. -/
def BitpackedFastFieldCodec.serialize (vals : List ℕ) : ℕ :=
  let stats := stats_from_vec vals
  let w := bitWidth (stats.max_value - stats.min_value)
  stats.min_value + 2 ^ 64 * (w + 2 ^ 8 * pack w (vals.map (fun v => v - stats.min_value)))

/-- Modelled from the spec: the reader state of the bit-packed codec
(spec section 4.3). -/
structure BitpackedReader where
  min_value : ℕ
  bit_width : ℕ
  packed : ℕ
deriving DecidableEq, Repr

/-- Modelled from the spec: reader construction parses the header fields and
validates `bit_width ≤ 64`, signalling corruption by `none` (spec sections
4.3 and 7). -/
def BitpackedFastFieldCodec.open_from_bytes (bytes : ℕ) : Option BitpackedReader :=
  let m := bytes % 2 ^ 64
  let w := bytes / 2 ^ 64 % 2 ^ 8
  if w ≤ 64 then some ⟨m, w, bytes / 2 ^ 64 / 2 ^ 8⟩ else none

/-- Modelled from the spec: `get(ord)` reads `bit_width` bits at the
`bit_width * ord` bit offset and returns `min + bits` as a u64
(spec section 4.3, "Read"). -/
def BitpackedReader.get_u64 (r : BitpackedReader) (doc : ℕ) : ℕ :=
  (r.min_value + unpack r.bit_width r.packed doc) % 2 ^ 64

/-- Modelled from the spec: the bit-packed codec is always applicable,
including `N = 0` and `min = max` (spec section 4.3). -/
def BitpackedFastFieldCodec.is_applicable (_vals : List ℕ) : Prop := True

instance (vals : List ℕ) : Decidable (BitpackedFastFieldCodec.is_applicable vals) :=
  inferInstanceAs (Decidable True)

/-- Opening a serialized column followed by a random-access read. -/
def BitpackedFastFieldCodec.read (bytes doc : ℕ) : Option ℕ :=
  (BitpackedFastFieldCodec.open_from_bytes bytes).map (fun r => r.get_u64 doc)

theorem bitpacked_width_le {l : List ℕ} (h64 : ∀ v ∈ l, v < 2 ^ 64) :
    bitWidth ((stats_from_vec l).max_value - (stats_from_vec l).min_value) ≤ 64 :=
  (bitWidth_le_iff _ 64).2 (lt_of_le_of_lt (Nat.sub_le _ _) (stats_max_lt_u64 h64))

/-- Parsing the serialized bit-packed column recovers the header fields and
the packed payload. -/
theorem bitpacked_open_serialize (vals : List ℕ) (h64 : ∀ v ∈ vals, v < 2 ^ 64) :
    BitpackedFastFieldCodec.open_from_bytes (BitpackedFastFieldCodec.serialize vals) =
      some ⟨(stats_from_vec vals).min_value,
        bitWidth ((stats_from_vec vals).max_value - (stats_from_vec vals).min_value),
        pack (bitWidth ((stats_from_vec vals).max_value - (stats_from_vec vals).min_value))
          (vals.map (fun v => v - (stats_from_vec vals).min_value))⟩ := by
  have hm : (stats_from_vec vals).min_value < 2 ^ 64 := stats_min_lt_u64 h64
  have hw : bitWidth ((stats_from_vec vals).max_value - (stats_from_vec vals).min_value) ≤ 64 :=
    bitpacked_width_le h64
  simp only [BitpackedFastFieldCodec.serialize, BitpackedFastFieldCodec.open_from_bytes]
  rw [Nat.add_mul_mod_self_left, Nat.mod_eq_of_lt hm,
    Nat.add_mul_div_left _ _ (by norm_num : 0 < 2 ^ 64), Nat.div_eq_of_lt hm, Nat.zero_add,
    Nat.add_mul_mod_self_left, Nat.mod_eq_of_lt (by omega : _ < 2 ^ 8),
    Nat.add_mul_div_left _ _ (by norm_num : 0 < 2 ^ 8),
    Nat.div_eq_of_lt (by omega : _ < 2 ^ 8), Nat.zero_add]
  rw [if_pos hw]

/-- Round trip of the bit-packed codec at every in-range ordinal. -/
theorem bitpacked_roundtrip (vals : List ℕ) (h64 : ∀ v ∈ vals, v < 2 ^ 64)
    (i : ℕ) (hi : i < vals.length) :
    BitpackedFastFieldCodec.read (BitpackedFastFieldCodec.serialize vals) i =
      some (vals.getD i 0) := by
  rw [BitpackedFastFieldCodec.read, bitpacked_open_serialize vals h64, Option.map_some']
  congr 1
  set m := (stats_from_vec vals).min_value with hm
  set w := bitWidth ((stats_from_vec vals).max_value - m) with hwdef
  have hv : vals.getD i 0 ∈ vals := by
    rw [List.getD_eq_getElem vals 0 hi]
    exact List.getElem_mem hi
  have hub : ∀ x ∈ vals.map (fun v => v - m), x < 2 ^ w := by
    intro x hx
    rcases List.mem_map.1 hx with ⟨v, hvmem, rfl⟩
    exact lt_of_le_of_lt (Nat.sub_le_sub_right (stats_le_max hvmem) m) (lt_two_pow_bitWidth _)
  have hlen : i < (vals.map (fun v => v - m)).length := by simpa using hi
  rw [BitpackedReader.get_u64]
  simp only
  rw [unpack_pack w _ hub i hlen, List.getD_eq_getElem _ 0 hlen, List.getElem_map,
    ← List.getD_eq_getElem vals 0 hi]
  rw [Nat.add_sub_cancel' (stats_min_le hv)]
  exact Nat.mod_eq_of_lt (h64 _ hv)

/-- Modelled from the spec: the fitted line
`L(i) = v[0] + (v[N-1] - v[0]) * i / (N-1)` of the linear-interpolation codec
(spec section 4.4), over `ℤ` with floor division. -/
def interpolation (first last len i : ℕ) : ℤ :=
  (first : ℤ) + ((last : ℤ) - (first : ℤ)) * (i : ℤ) / ((len : ℤ) - 1)

/-- Modelled from the spec: the residuals `r[i] = v[i] - L(i)` of a column
against the line through its first and last values (spec section 4.4),
accumulated from position `i` upward. -/
def residAux (first last len : ℕ) : ℕ → List ℕ → List ℤ
  | _, [] => []
  | i, v :: vs => ((v : ℤ) - interpolation first last len i) :: residAux first last len (i + 1) vs

/-- Modelled from the spec: the residual column of section 4.4. -/
def residualList (xs : List ℕ) : List ℤ :=
  residAux (xs.headD 0) (xs.getLastD 0) xs.length 0 xs

/-- Modelled from the spec: the minimal residual, the per-column offset that
makes stored residuals non-negative (spec section 4.4). -/
def resMin (xs : List ℕ) : ℤ :=
  match residualList xs with
  | [] => 0
  | r :: rs => rs.foldl min r

/-- Modelled from the spec: the maximal residual (spec section 4.4). -/
def resMax (xs : List ℕ) : ℤ :=
  match residualList xs with
  | [] => 0
  | r :: rs => rs.foldl max r

/-- Modelled from the spec:
`residual_bit_width = ceil(log2(max_r - min_r + 1))` (spec section 4.4). -/
def resWidth (xs : List ℕ) : ℕ := bitWidth (resMax xs - resMin xs).toNat

/-- Modelled from the spec: the reader state of the linear-interpolation
codec, holding the body header
`<v[0]> <v[N-1]> <N> <residual_min> <residual_bit_width>` and the packed
residual stream (spec section 4.4). -/
structure LinearInterpolReader where
  first : ℕ
  last : ℕ
  num_vals : ℕ
  residual_min : ℤ
  residual_bit_width : ℕ
  packed : ℕ
deriving DecidableEq, Repr

/-- Modelled from the spec: serialization of the linear-interpolation codec,
storing `r[i] - residual_min` in `residual_bit_width` bits each
(spec section 4.4). -/
def LinearInterpolCodec.serialize (xs : List ℕ) : LinearInterpolReader :=
  ⟨xs.headD 0, xs.getLastD 0, xs.length, resMin xs, resWidth xs,
    pack (resWidth xs) ((residualList xs).map (fun r => (r - resMin xs).toNat))⟩

/-- Modelled from the spec:
`get(ord)` reconstructs `v[i] = L(i) + residual_min + unpacked_residual[i]`
as a u64 (spec section 4.4). -/
def LinearInterpolReader.get_u64 (r : LinearInterpolReader) (doc : ℕ) : ℕ :=
  ((interpolation r.first r.last r.num_vals doc + r.residual_min +
    (unpack r.residual_bit_width r.packed doc : ℤ)) % (2 ^ 64 : ℤ)).toNat

/-- Modelled from the spec: the linear-interpolation codec requires `N ≥ 2`
(spec section 4.4). -/
def LinearInterpolCodec.is_applicable (xs : List ℕ) : Prop := 2 ≤ xs.length

instance (xs : List ℕ) : Decidable (LinearInterpolCodec.is_applicable xs) :=
  inferInstanceAs (Decidable (2 ≤ xs.length))

theorem residAux_length (first last len : ℕ) : ∀ (xs : List ℕ) (i : ℕ),
    (residAux first last len i xs).length = xs.length := by
  intro xs
  induction xs with
  | nil => intro i; rfl
  | cons v vs ih => intro i; simp [residAux, ih]

theorem residAux_getD (first last len : ℕ) : ∀ (xs : List ℕ) (i j : ℕ), j < xs.length →
    (residAux first last len i xs).getD j 0 =
      (xs.getD j 0 : ℤ) - interpolation first last len (i + j) := by
  intro xs
  induction xs with
  | nil => intro i j hj; cases hj
  | cons v vs ih =>
    intro i j hj
    cases j with
    | zero => simp [residAux]
    | succ j =>
      simp only [residAux, List.getD_cons_succ]
      rw [ih (i + 1) j (by simpa using Nat.lt_of_succ_lt_succ hj)]
      congr 2
      omega

theorem residualList_length (xs : List ℕ) : (residualList xs).length = xs.length :=
  residAux_length _ _ _ xs 0

theorem residualList_getD (xs : List ℕ) (j : ℕ) (hj : j < xs.length) :
    (residualList xs).getD j 0 =
      (xs.getD j 0 : ℤ) - interpolation (xs.headD 0) (xs.getLastD 0) xs.length j := by
  rw [residualList, residAux_getD _ _ _ xs 0 j hj, Nat.zero_add]

theorem resMin_le_mem {xs : List ℕ} {r : ℤ} (h : r ∈ residualList xs) :
    resMin xs ≤ r := by
  rw [resMin]
  rcases hr : residualList xs with _ | ⟨r0, rs⟩
  · rw [hr] at h; cases h
  · rw [hr] at h
    rcases List.mem_cons.1 h with h | h
    · subst h; exact foldl_min_le_seed rs r
    · exact foldl_min_le_of_mem h r0

theorem mem_le_resMax {xs : List ℕ} {r : ℤ} (h : r ∈ residualList xs) :
    r ≤ resMax xs := by
  rw [resMax]
  rcases hr : residualList xs with _ | ⟨r0, rs⟩
  · rw [hr] at h; cases h
  · rw [hr] at h
    rcases List.mem_cons.1 h with h | h
    · subst h; exact le_foldl_max_seed rs r
    · exact le_foldl_max_of_mem h r0

theorem le_resMin {xs : List ℕ} {A : ℤ} (hA : ∀ r ∈ residualList xs, A ≤ r) :
    xs ≠ [] → A ≤ resMin xs := by
  intro hne
  rw [resMin]
  rcases hr : residualList xs with _ | ⟨r0, rs⟩
  · exfalso
    apply hne
    have hlen := residualList_length xs
    rw [hr] at hlen
    exact List.eq_nil_of_length_eq_zero (by simpa using hlen.symm)
  · exact le_foldl_min (hA r0 (hr ▸ List.mem_cons_self r0 rs))
      fun b hb => hA b (hr ▸ List.mem_cons_of_mem r0 hb)

theorem resMax_le {xs : List ℕ} {B : ℤ} (hB : ∀ r ∈ residualList xs, r ≤ B) :
    xs ≠ [] → resMax xs ≤ B := by
  intro hne
  rw [resMax]
  rcases hr : residualList xs with _ | ⟨r0, rs⟩
  · exfalso
    apply hne
    have hlen := residualList_length xs
    rw [hr] at hlen
    exact List.eq_nil_of_length_eq_zero (by simpa using hlen.symm)
  · exact foldl_max_le (hB r0 (hr ▸ List.mem_cons_self r0 rs))
      fun b hb => hB b (hr ▸ List.mem_cons_of_mem r0 hb)

/-- Round trip of the linear-interpolation codec at every in-range
ordinal.  The reconstruction cancels the interpolation line exactly, so no
assumption on the line itself is needed. -/
theorem linear_roundtrip (xs : List ℕ) (h64 : ∀ v ∈ xs, v < 2 ^ 64)
    (i : ℕ) (hi : i < xs.length) :
    (LinearInterpolCodec.serialize xs).get_u64 i = xs.getD i 0 := by
  have hri : (residualList xs).getD i 0 ∈ residualList xs := by
    rw [List.getD_eq_getElem _ 0 (by rwa [residualList_length])]
    exact List.getElem_mem _
  have hub : ∀ x ∈ (residualList xs).map (fun r => (r - resMin xs).toNat),
      x < 2 ^ resWidth xs := by
    intro x hx
    rcases List.mem_map.1 hx with ⟨r, hrmem, rfl⟩
    refine lt_of_le_of_lt ?_ (lt_two_pow_bitWidth (resMax xs - resMin xs).toNat)
    exact Int.toNat_le_toNat (sub_le_sub_right (mem_le_resMax hrmem) _)
  have hlen : i < ((residualList xs).map (fun r => (r - resMin xs).toNat)).length := by
    simpa [residualList_length] using hi
  rw [LinearInterpolCodec.serialize, LinearInterpolReader.get_u64]
  simp only
  rw [unpack_pack _ _ hub i hlen, List.getD_eq_getElem _ 0 hlen, List.getElem_map,
    ← List.getD_eq_getElem (residualList xs) 0 (by rwa [residualList_length])]
  rw [Int.toNat_of_nonneg (sub_nonneg.2 (resMin_le_mem hri))]
  rw [residualList_getD xs i hi]
  have hv : (xs.getD i 0 : ℤ) = interpolation (xs.headD 0) (xs.getLastD 0) xs.length i +
      resMin xs + ((xs.getD i 0 : ℤ) - interpolation (xs.headD 0) (xs.getLastD 0) xs.length i -
        resMin xs) := by ring
  rw [← hv]
  have hv64 : (xs.getD i 0 : ℤ) < 2 ^ 64 := by
    have : xs.getD i 0 ∈ xs := by
      rw [List.getD_eq_getElem xs 0 hi]
      exact List.getElem_mem hi
    exact_mod_cast h64 _ this
  rw [Int.emod_eq_of_lt (by positivity) hv64]
  exact Int.toNat_natCast _

/-- Modelled from the spec: the fixed chunk size of the multi-linear codec
(spec section 4.5, design value `CHUNK = 512`). -/
def CHUNK : ℕ := 512

/-- Modelled from the spec: partition a column into consecutive chunks of
`CHUNK` values (the last chunk may be shorter), with an explicit fuel
argument so that the definition evaluates by kernel reduction. -/
def chunkedAux : ℕ → List ℕ → List (List ℕ)
  | 0, _ => []
  | fuel + 1, l => if l = [] then [] else l.take CHUNK :: chunkedAux fuel (l.drop CHUNK)

/-- Modelled from the spec: the chunk decomposition of a column
(spec section 4.5). -/
def chunked (l : List ℕ) : List (List ℕ) := chunkedAux l.length l

/-- Modelled from the spec: the multi-linear codec serializes each chunk
independently with the linear-interpolation scheme, writing a per-chunk
header `v_first, v_last, residual_min, residual_bit_width` and the chunk's
packed residuals (spec section 4.5). -/
def MultiLinearInterpolFastFieldCodec.serialize (xs : List ℕ) : List LinearInterpolReader :=
  (chunked xs).map LinearInterpolCodec.serialize

/-- Modelled from the spec: `get(ord)` locates chunk `ord / CHUNK` and
reconstructs position `ord % CHUNK` inside it as in section 4.4
(spec section 4.5). -/
def MultiLinearInterpolFastFieldCodec.get_u64
    (blocks : List LinearInterpolReader) (doc : ℕ) : ℕ :=
  (blocks.getD (doc / CHUNK) ⟨0, 0, 0, 0, 0, 0⟩).get_u64 (doc % CHUNK)

/-- Modelled from the spec: the multi-linear codec accepts the same columns
as the linear one; a short column degenerates to a single chunk
(spec section 4.5). -/
def MultiLinearInterpolFastFieldCodec.is_applicable (xs : List ℕ) : Prop := 2 ≤ xs.length

instance (xs : List ℕ) : Decidable (MultiLinearInterpolFastFieldCodec.is_applicable xs) :=
  inferInstanceAs (Decidable (2 ≤ xs.length))

theorem chunkedAux_length : ∀ (fuel : ℕ) (l : List ℕ), l.length ≤ fuel →
    (chunkedAux fuel l).length = (l.length + (CHUNK - 1)) / CHUNK := by
  intro fuel
  induction fuel with
  | zero =>
    intro l hl
    have h0 : l = [] := List.length_eq_zero.1 (by omega)
    subst h0
    rfl
  | succ fuel ih =>
    intro l hl
    by_cases h0 : l = []
    · subst h0; rfl
    · have hpos : 0 < l.length := List.length_pos_of_ne_nil h0
      rw [show chunkedAux (fuel + 1) l = l.take CHUNK :: chunkedAux fuel (l.drop CHUNK) by
        simp [chunkedAux, h0]]
      rw [List.length_cons,
        ih (l.drop CHUNK) (by simp only [List.length_drop, CHUNK]; omega),
        List.length_drop]
      simp only [CHUNK]
      omega

theorem chunkedAux_getD : ∀ (fuel : ℕ) (l : List ℕ) (i : ℕ), l.length ≤ fuel →
    i < l.length →
    (chunkedAux fuel l).getD (i / CHUNK) [] = (l.drop (CHUNK * (i / CHUNK))).take CHUNK := by
  intro fuel
  induction fuel with
  | zero => intro l i hl hi; omega
  | succ fuel ih =>
    intro l i hl hi
    have h0 : l ≠ [] := by
      intro h; subst h; simp at hi
    rw [show chunkedAux (fuel + 1) l = l.take CHUNK :: chunkedAux fuel (l.drop CHUNK) by
      simp [chunkedAux, h0]]
    by_cases hsmall : i < CHUNK
    · rw [show i / CHUNK = 0 by
        simp only [CHUNK] at hsmall ⊢; omega]
      simp
    · have hdiv : i / CHUNK = (i - CHUNK) / CHUNK + 1 := by
        simp only [CHUNK] at hsmall ⊢; omega
      rw [hdiv, List.getD_cons_succ,
        ih (l.drop CHUNK) (i - CHUNK)
          (by simp only [List.length_drop, CHUNK] at hl ⊢; omega)
          (by simp only [List.length_drop, CHUNK] at hsmall ⊢; omega),
        List.drop_drop]
      congr 2
      simp only [CHUNK] at hsmall ⊢
      omega

/-- Each chunk of the decomposition is the corresponding `take`/`drop`
window of the column. -/
theorem chunked_getD {l : List ℕ} {i : ℕ} (hi : i < l.length) :
    (chunked l).getD (i / CHUNK) [] = (l.drop (CHUNK * (i / CHUNK))).take CHUNK :=
  chunkedAux_getD l.length l i le_rfl hi

/-- Round trip of the multi-linear codec at every in-range ordinal. -/
theorem multilinear_roundtrip (xs : List ℕ) (h64 : ∀ v ∈ xs, v < 2 ^ 64)
    (i : ℕ) (hi : i < xs.length) :
    MultiLinearInterpolFastFieldCodec.get_u64
      (MultiLinearInterpolFastFieldCodec.serialize xs) i = xs.getD i 0 := by
  have hnum : (chunked xs).length = (xs.length + (CHUNK - 1)) / CHUNK :=
    chunkedAux_length xs.length xs le_rfl
  have hclt : i / CHUNK < (chunked xs).length := by
    rw [hnum]; simp only [CHUNK]; omega
  set c := i / CHUNK with hc
  set chunk : List ℕ := (xs.drop (CHUNK * c)).take CHUNK with hchunk
  have hblock : (MultiLinearInterpolFastFieldCodec.serialize xs).getD c ⟨0, 0, 0, 0, 0, 0⟩ =
      LinearInterpolCodec.serialize chunk := by
    rw [MultiLinearInterpolFastFieldCodec.serialize,
      List.getD_eq_getElem?_getD, List.getElem?_map,
      List.getElem?_eq_getElem hclt, Option.map_some', Option.getD_some, ← List.getD_eq_getElem,
      chunked_getD hi]
  have hmodeq : CHUNK * c + i % CHUNK = i := by
    rw [hc]
    exact Nat.div_add_mod i CHUNK
  have hmod : i % CHUNK < chunk.length := by
    rw [hchunk, List.length_take, List.length_drop]
    have h1 : i % CHUNK < CHUNK := Nat.mod_lt i (by simp only [CHUNK]; omega)
    omega
  have h64c : ∀ v ∈ chunk, v < 2 ^ 64 := fun v hv =>
    h64 v (((List.take_sublist _ _).trans (List.drop_sublist _ _)).subset hv)
  rw [MultiLinearInterpolFastFieldCodec.get_u64, ← hc, hblock,
    linear_roundtrip chunk h64c (i % CHUNK) hmod]
  rw [hchunk]
  rw [List.getD_eq_getElem?_getD, List.getD_eq_getElem?_getD,
    List.getElem?_take_of_lt (Nat.mod_lt i (by simp only [CHUNK]; omega)),
    List.getElem?_drop, hmodeq]

/-- Claim C1: for every codec and every column of u64 values it is
applicable to, opening the bytes produced by `serialize` and calling `get`
on the resulting reader returns the original value at every in-range
ordinal.  The bit-packing part is unconditional, so it covers columns of
length 0 (vacuously, as in the reference loop), length 1, and `min = max`. -/
theorem c1_serialize_roundtrip (vals : List ℕ) (h64 : ∀ v ∈ vals, v < 2 ^ 64) :
    (BitpackedFastFieldCodec.is_applicable vals →
      ∀ i < vals.length,
        BitpackedFastFieldCodec.read (BitpackedFastFieldCodec.serialize vals) i =
          some (vals.getD i 0)) ∧
    (LinearInterpolCodec.is_applicable vals →
      ∀ i < vals.length,
        (LinearInterpolCodec.serialize vals).get_u64 i = vals.getD i 0) ∧
    (MultiLinearInterpolFastFieldCodec.is_applicable vals →
      ∀ i < vals.length,
        MultiLinearInterpolFastFieldCodec.get_u64
          (MultiLinearInterpolFastFieldCodec.serialize vals) i = vals.getD i 0) :=
  ⟨fun _ i hi => bitpacked_roundtrip vals h64 i hi,
    fun _ i hi => linear_roundtrip vals h64 i hi,
    fun _ i hi => multilinear_roundtrip vals h64 i hi⟩

/-- Witness for C1 at the column `[10, 12, 15]` and ordinal 1, for all
three codecs. -/
theorem c1_serialize_roundtrip_witness :
    (∀ v ∈ [10, 12, 15], v < 2 ^ 64) ∧
    BitpackedFastFieldCodec.read (BitpackedFastFieldCodec.serialize [10, 12, 15]) 1 =
      some ([10, 12, 15].getD 1 0) ∧
    (LinearInterpolCodec.serialize [10, 12, 15]).get_u64 1 = [10, 12, 15].getD 1 0 ∧
    MultiLinearInterpolFastFieldCodec.get_u64
      (MultiLinearInterpolFastFieldCodec.serialize [10, 12, 15]) 1 = [10, 12, 15].getD 1 0 :=
  ⟨by decide,
    (c1_serialize_roundtrip [10, 12, 15] (by decide)).1 trivial 1 (by decide),
    (c1_serialize_roundtrip [10, 12, 15] (by decide)).2.1 (by decide) 1 (by decide),
    (c1_serialize_roundtrip [10, 12, 15] (by decide)).2.2 (by decide) 1 (by decide)⟩

theorem linear_get_lt (r : LinearInterpolReader) (doc : ℕ) : r.get_u64 doc < 2 ^ 64 := by
  rw [LinearInterpolReader.get_u64]
  have h2 := Int.emod_lt_of_pos
    (interpolation r.first r.last r.num_vals doc + r.residual_min +
      (unpack r.residual_bit_width r.packed doc : ℤ))
    (by norm_num : (0 : ℤ) < 2 ^ 64)
  omega

/-- Claim C8: for every reader obtained from a serialized column and every
ordinal, `get` returns a u64 value, with no error and no undefined
behaviour; in the model, reader construction succeeds on serialized bytes
and every `get` is a total function into `[0, 2^64)`, also at out-of-range
ordinals. -/
theorem c8_get_total (vals : List ℕ) (h64 : ∀ v ∈ vals, v < 2 ^ 64) (ord : ℕ) :
    (∃ r, BitpackedFastFieldCodec.open_from_bytes (BitpackedFastFieldCodec.serialize vals) =
      some r ∧ r.get_u64 ord < 2 ^ 64) ∧
    (LinearInterpolCodec.serialize vals).get_u64 ord < 2 ^ 64 ∧
    MultiLinearInterpolFastFieldCodec.get_u64
      (MultiLinearInterpolFastFieldCodec.serialize vals) ord < 2 ^ 64 := by
  refine ⟨⟨_, bitpacked_open_serialize vals h64, ?_⟩, linear_get_lt _ ord, linear_get_lt _ _⟩
  rw [BitpackedReader.get_u64]
  exact Nat.mod_lt _ (by norm_num)

/-- Witness for C8 at the column `[5]` and the out-of-range ordinal 7. -/
theorem c8_get_total_witness :
    (∀ v ∈ [5], v < 2 ^ 64) ∧
    (∃ r, BitpackedFastFieldCodec.open_from_bytes (BitpackedFastFieldCodec.serialize [5]) =
      some r ∧ r.get_u64 7 < 2 ^ 64) ∧
    (LinearInterpolCodec.serialize [5]).get_u64 7 < 2 ^ 64 ∧
    MultiLinearInterpolFastFieldCodec.get_u64
      (MultiLinearInterpolFastFieldCodec.serialize [5]) 7 < 2 ^ 64 :=
  ⟨by decide, c8_get_total [5] (by decide) 7⟩

/-- Modelled from the spec: the bit-packed codec's estimated compression
ratio is `bit_width / 64` plus a small constant accounting for the header
(spec section 4.3); the constant is a tuning knob (section 4.8), fixed here
at `1/256`. -/
def BitpackedFastFieldCodec.estimate (vals : List ℕ) : ℚ :=
  (bitWidth ((stats_from_vec vals).max_value - (stats_from_vec vals).min_value) : ℚ) / 64
    + 1 / 256

/-- Modelled from the spec: the linear-interpolation codec's estimate is
`residual_bit_width / 64 + ε_threshold` (spec section 4.4); the additive
bias is a tuning knob (section 4.8) constrained by the orderings of
section 8, fixed here at `1/128`. -/
def LinearInterpolCodec.estimate (vals : List ℕ) : ℚ :=
  (resWidth vals : ℚ) / 64 + 1 / 128

/-- Modelled from the spec: total body bits of the multi-linear codec,
aggregating per-chunk residual bit widths plus a fixed 25-byte per-chunk
header (`v_first`, `v_last`, `residual_min`, `residual_bit_width`) and the
chunk-count word (spec section 4.5). -/
def MultiLinearInterpolFastFieldCodec.totalBits (vals : List ℕ) : ℕ :=
  ((chunked vals).map (fun c => c.length * resWidth c + 200)).sum + 64

/-- Modelled from the spec: the multi-linear codec's estimate relative to
the uncompressed baseline `64 * N` bits, plus the positive bias
`ε_threshold ≈ 0.10` (spec sections 4.5 and 4.8). -/
def MultiLinearInterpolFastFieldCodec.estimate (vals : List ℕ) : ℚ :=
  (MultiLinearInterpolFastFieldCodec.totalBits vals : ℚ) / (64 * vals.length) + 1 / 10

/-- Modelled from the spec: the registered codecs, in their fixed
enumeration order (spec section 4.6). -/
inductive CodecType where
  | bitpacked
  | linear_interpol
  | multi_linear_interpol
deriving DecidableEq, Repr

/-- Modelled from the spec: the stable codec identities, which also give
the enumeration order (spec sections 3 and 6). -/
def CodecType.codec_id : CodecType → ℕ
  | .bitpacked => 1
  | .linear_interpol => 2
  | .multi_linear_interpol => 3

/-- Dispatch of `is_applicable` over the registered codecs. -/
def CodecType.is_applicable : CodecType → List ℕ → Prop
  | .bitpacked => BitpackedFastFieldCodec.is_applicable
  | .linear_interpol => LinearInterpolCodec.is_applicable
  | .multi_linear_interpol => MultiLinearInterpolFastFieldCodec.is_applicable

/-- Dispatch of `estimate` over the registered codecs. -/
def CodecType.estimate : CodecType → List ℕ → ℚ
  | .bitpacked => BitpackedFastFieldCodec.estimate
  | .linear_interpol => LinearInterpolCodec.estimate
  | .multi_linear_interpol => MultiLinearInterpolFastFieldCodec.estimate

/-- Modelled from the spec: the selection algorithm of section 4.6,
unrolled over the fixed enumeration order: walk the codecs in order and
replace the current best only when an applicable codec has a strictly
smaller estimate, so that ties keep the earlier (simpler) codec. -/
def dynamic_select (vals : List ℕ) : CodecType :=
  if LinearInterpolCodec.is_applicable vals ∧
      LinearInterpolCodec.estimate vals < BitpackedFastFieldCodec.estimate vals then
    if MultiLinearInterpolFastFieldCodec.is_applicable vals ∧
        MultiLinearInterpolFastFieldCodec.estimate vals < LinearInterpolCodec.estimate vals then
      .multi_linear_interpol
    else .linear_interpol
  else
    if MultiLinearInterpolFastFieldCodec.is_applicable vals ∧
        MultiLinearInterpolFastFieldCodec.estimate vals < BitpackedFastFieldCodec.estimate vals then
      .multi_linear_interpol
    else .bitpacked

/-- Claim C4: the selector picks, among the registered codecs whose
`is_applicable` holds for the column, one with the smallest estimate, and
on ties the codec earliest in the enumeration order (bit-packing, linear,
multi-linear). -/
theorem c4_selector (vals : List ℕ) :
    (dynamic_select vals).is_applicable vals ∧
    (∀ c : CodecType, c.is_applicable vals →
      (dynamic_select vals).estimate vals ≤ c.estimate vals) ∧
    (∀ c : CodecType, c.is_applicable vals →
      c.estimate vals ≤ (dynamic_select vals).estimate vals →
      (dynamic_select vals).codec_id ≤ c.codec_id) := by
  rw [dynamic_select]
  split_ifs with h1 h2 h3
  · -- multi-linear wins strictly over linear, which wins strictly over bit-packing
    refine ⟨h2.1, fun c hc => ?_, fun c hc hle => ?_⟩
    · cases c
      · exact le_of_lt (lt_trans h2.2 h1.2)
      · exact le_of_lt h2.2
      · exact le_rfl
    · cases c
      · exact absurd (lt_of_le_of_lt hle (lt_trans h2.2 h1.2)) (lt_irrefl _)
      · exact absurd (lt_of_le_of_lt hle h2.2) (lt_irrefl _)
      · exact le_rfl
  · -- linear wins strictly over bit-packing, multi-linear does not beat it
    refine ⟨h1.1, fun c hc => ?_, fun c hc hle => ?_⟩
    · cases c
      · exact le_of_lt h1.2
      · exact le_rfl
      · exact le_of_not_lt fun hlt => h2 ⟨hc, hlt⟩
    · cases c
      · exact absurd (lt_of_le_of_lt hle h1.2) (lt_irrefl _)
      · exact le_rfl
      · decide
  · -- multi-linear wins strictly over bit-packing, linear does not beat bit-packing
    have hbl : LinearInterpolCodec.is_applicable vals →
        BitpackedFastFieldCodec.estimate vals ≤ LinearInterpolCodec.estimate vals :=
      fun ha => le_of_not_lt fun hlt => h1 ⟨ha, hlt⟩
    refine ⟨h3.1, fun c hc => ?_, fun c hc hle => ?_⟩
    · cases c
      · exact le_of_lt h3.2
      · exact le_of_lt (lt_of_lt_of_le h3.2 (hbl hc))
      · exact le_rfl
    · cases c
      · exact absurd (lt_of_le_of_lt hle h3.2) (lt_irrefl _)
      · exact absurd (lt_of_le_of_lt hle (lt_of_lt_of_le h3.2 (hbl hc))) (lt_irrefl _)
      · exact le_rfl
  · -- bit-packing retained: no applicable codec improves on it
    refine ⟨trivial, fun c hc => ?_, fun c hc hle => ?_⟩
    · cases c
      · exact le_rfl
      · exact le_of_not_lt fun hlt => h1 ⟨hc, hlt⟩
      · exact le_of_not_lt fun hlt => h3 ⟨hc, hlt⟩
    · cases c
      · exact le_rfl
      · decide
      · decide

/-- Witness for C4 at the column `[1, 2, 3]`, compared against the always
applicable bit-packing codec. -/
theorem c4_selector_witness :
    (dynamic_select [1, 2, 3]).is_applicable [1, 2, 3] ∧
    (dynamic_select [1, 2, 3]).estimate [1, 2, 3] ≤ CodecType.bitpacked.estimate [1, 2, 3] :=
  ⟨(c4_selector [1, 2, 3]).1, (c4_selector [1, 2, 3]).2.1 CodecType.bitpacked trivial⟩

/-- Claim C6: for the noisy column `[200, 10, 10, 10, 10, 1000, 20]`, the
bit-packing estimate is at most the linear-interpolation estimate, which is
at most 0.32. -/
theorem c6_noisy_estimates :
    BitpackedFastFieldCodec.estimate [200, 10, 10, 10, 10, 1000, 20] ≤
      LinearInterpolCodec.estimate [200, 10, 10, 10, 10, 1000, 20] ∧
    LinearInterpolCodec.estimate [200, 10, 10, 10, 10, 1000, 20] ≤ 32 / 100 := by
  have h1 : (stats_from_vec [200, 10, 10, 10, 10, 1000, 20]).max_value -
      (stats_from_vec [200, 10, 10, 10, 10, 1000, 20]).min_value = 990 := by decide
  have h2 : resWidth [200, 10, 10, 10, 10, 1000, 20] = 11 := by decide
  have h3 : bitWidth 990 = 10 := by decide
  rw [BitpackedFastFieldCodec.estimate, LinearInterpolCodec.estimate, h1, h2, h3]
  constructor <;> norm_num

theorem stats_min_eq {l : List ℕ} {a : ℕ} (hmem : a ∈ l) (hlb : ∀ v ∈ l, a ≤ v) :
    (stats_from_vec l).min_value = a := by
  have hne : l ≠ [] := by rintro rfl; cases hmem
  refine le_antisymm (stats_min_le hmem) ?_
  rw [stats_from_vec_eq_compute]
  exact hlb _ (compute_min_mem hne)

theorem stats_max_eq {l : List ℕ} {b : ℕ} (hmem : b ∈ l) (hub : ∀ v ∈ l, v ≤ b) :
    (stats_from_vec l).max_value = b := by
  have hne : l ≠ [] := by rintro rfl; cases hmem
  refine le_antisymm ?_ (stats_le_max hmem)
  rw [stats_from_vec_eq_compute]
  exact hub _ (compute_max_mem hne)

theorem range'_take : ∀ (k a n : ℕ), (List.range' a n).take k = List.range' a (min k n) := by
  intro k
  induction k with
  | zero => intro a n; simp
  | succ k ih =>
    intro a n
    cases n with
    | zero => simp
    | succ n =>
      rw [List.range'_succ, List.take_succ_cons, ih (a + 1) n, Nat.succ_min_succ,
        ← List.range'_succ]

theorem range'_drop : ∀ (k a n : ℕ), (List.range' a n).drop k = List.range' (a + k) (n - k) := by
  intro k
  induction k with
  | zero => intro a n; simp
  | succ k ih =>
    intro a n
    cases n with
    | zero => simp
    | succ n =>
      rw [List.range'_succ, List.drop_succ_cons, ih (a + 1) n]
      congr 1 <;> omega

/-- Every residual of an arithmetic progression against its own first/last
line vanishes. -/
theorem residualList_range'_getD (a n : ℕ) {j : ℕ} (hj : j < n) :
    (residualList (List.range' a n)).getD j 0 = 0 := by
  have hlen : (List.range' a n).length = n := List.length_range' a 1 n
  rw [residualList_getD _ j (by rwa [hlen])]
  have hne : n ≠ 0 := by omega
  have hhead : (List.range' a n).headD 0 = a := by
    cases n with
    | zero => omega
    | succ n => rw [List.range'_succ]; rfl
  have hlast : (List.range' a n).getLastD 0 = a + n - 1 := by
    rw [List.getLastD_eq_getLast?, List.getLast?_range' n, if_neg hne, Option.getD_some]
  have hval : (List.range' a n).getD j 0 = a + j := by
    rw [List.getD_eq_getElem _ 0 (by rwa [hlen]), List.getElem_range']
    omega
  rw [hhead, hlast, hval, hlen, interpolation]
  rcases Nat.lt_or_ge n 2 with h2 | h2
  · have : n = 1 := by omega
    subst this
    interval_cases j
    norm_num
  · have hcast : ((a + n - 1 : ℕ) : ℤ) - (a : ℤ) = (n : ℤ) - 1 := by
      omega
    rw [hcast, Int.mul_ediv_cancel_left _ (by
      have : (2 : ℤ) ≤ (n : ℤ) := by exact_mod_cast h2
      omega)]
    push_cast
    omega

theorem residualList_range'_all_zero (a n : ℕ) :
    ∀ r ∈ residualList (List.range' a n), r = 0 := by
  intro r hr
  rcases List.mem_iff_getElem.1 hr with ⟨j, hjlt, rfl⟩
  have hj : j < n := by
    rwa [residualList_length, List.length_range'] at hjlt
  rw [← List.getD_eq_getElem _ 0 hjlt]
  exact residualList_range'_getD a n hj

/-- The residual bit width of an arithmetic progression is zero. -/
theorem resWidth_range' (a n : ℕ) : resWidth (List.range' a n) = 0 := by
  cases n with
  | zero =>
    rfl
  | succ n =>
    have hne : List.range' a (n + 1) ≠ [] := by simp
    have h0mem : (residualList (List.range' a (n + 1))).getD 0 0 ∈
        residualList (List.range' a (n + 1)) := by
      rw [List.getD_eq_getElem _ 0 (by simp [residualList_length])]
      exact List.getElem_mem _
    have h00 : (residualList (List.range' a (n + 1))).getD 0 0 = 0 :=
      residualList_range'_getD a (n + 1) (by omega)
    have hminle : resMin (List.range' a (n + 1)) ≤ 0 := h00 ▸ resMin_le_mem h0mem
    have hminge : (0 : ℤ) ≤ resMin (List.range' a (n + 1)) :=
      le_resMin (fun r hr => (residualList_range'_all_zero a (n + 1) r hr).ge) hne
    have hmaxge : (0 : ℤ) ≤ resMax (List.range' a (n + 1)) := h00 ▸ mem_le_resMax h0mem
    have hmaxle : resMax (List.range' a (n + 1)) ≤ 0 :=
      resMax_le (fun r hr => (residualList_range'_all_zero a (n + 1) r hr).le) hne
    rw [resWidth, le_antisymm hminle hminge, le_antisymm hmaxle hmaxge]
    rfl

/-- Chunk-wise bit aggregate of an arithmetic progression: every chunk has
residual width zero, so only the 200-bit chunk headers remain. -/
theorem chunk_sum_range' : ∀ (fuel a n : ℕ), n ≤ fuel →
    ((chunkedAux fuel (List.range' a n)).map (fun c => c.length * resWidth c + 200)).sum =
      200 * ((n + (CHUNK - 1)) / CHUNK) := by
  intro fuel
  induction fuel with
  | zero =>
    intro a n hn
    have : n = 0 := by omega
    subst this
    simp [chunkedAux, CHUNK]
  | succ fuel ih =>
    intro a n hn
    rcases Nat.eq_zero_or_pos n with h0 | hpos
    · subst h0
      simp [chunkedAux, CHUNK]
    · have hne : List.range' a n ≠ [] := by simp; omega
      rw [show chunkedAux (fuel + 1) (List.range' a n) =
          (List.range' a n).take CHUNK ::
            chunkedAux fuel ((List.range' a n).drop CHUNK) by
        simp [chunkedAux, hne]]
      rw [range'_take, range'_drop, List.map_cons, List.sum_cons,
        ih (a + CHUNK) (n - CHUNK) (by simp only [CHUNK] at hn ⊢; omega),
        resWidth_range', List.length_range']
      simp only [CHUNK]
      omega

/-- Total body-bit aggregate of the multi-linear codec on an arithmetic
progression. -/
theorem totalBits_range' (a n : ℕ) :
    MultiLinearInterpolFastFieldCodec.totalBits (List.range' a n) =
      200 * ((n + (CHUNK - 1)) / CHUNK) + 64 := by
  rw [MultiLinearInterpolFastFieldCodec.totalBits, chunked,
    chunk_sum_range' (List.range' a n).length a n (by rw [List.length_range'])]

/-- Claim C5: for the strictly increasing arithmetic progression
`10..=20000`, the linear-interpolation estimate is at most 0.01, at most
the multi-linear estimate, which is at most the bit-packing estimate. -/
theorem c5_progression_estimates :
    LinearInterpolCodec.estimate (List.range' 10 19991) ≤ 1 / 100 ∧
    LinearInterpolCodec.estimate (List.range' 10 19991) ≤
      MultiLinearInterpolFastFieldCodec.estimate (List.range' 10 19991) ∧
    MultiLinearInterpolFastFieldCodec.estimate (List.range' 10 19991) ≤
      BitpackedFastFieldCodec.estimate (List.range' 10 19991) := by
  have hmin : (stats_from_vec (List.range' 10 19991)).min_value = 10 :=
    stats_min_eq (by simp [List.mem_range'_1]) (fun v hv => (List.mem_range'_1.1 hv).1)
  have hmax : (stats_from_vec (List.range' 10 19991)).max_value = 20000 :=
    stats_max_eq (by simp [List.mem_range'_1]) (fun v hv => by
      have := (List.mem_range'_1.1 hv).2
      omega)
  have hlin : resWidth (List.range' 10 19991) = 0 := resWidth_range' 10 19991
  have htot : MultiLinearInterpolFastFieldCodec.totalBits (List.range' 10 19991) = 8064 := by
    rw [totalBits_range']
    simp only [CHUNK]
  have hbw : bitWidth (20000 - 10) = 15 := by decide
  rw [LinearInterpolCodec.estimate, MultiLinearInterpolFastFieldCodec.estimate,
    BitpackedFastFieldCodec.estimate, hmin, hmax, hlin, htot, hbw, List.length_range']
  norm_num

/-- The outlier column of the estimator tests: `200..=20000` followed by a
single `1_000_000`. -/
def outlier_column : List ℕ := List.range' 200 19801 ++ [1000000]

theorem outlier_length : outlier_column.length = 19802 := by
  simp [outlier_column]

theorem outlier_headD : outlier_column.headD 0 = 200 := by
  rw [outlier_column, show (19801 : ℕ) = 19800 + 1 from rfl, List.range'_succ,
    List.cons_append, List.headD_cons]

theorem outlier_getLastD : outlier_column.getLastD 0 = 1000000 :=
  List.getLastD_concat _ _ _

theorem outlier_getD_left {j : ℕ} (hj : j < 19801) : outlier_column.getD j 0 = 200 + j := by
  rw [outlier_column, List.getD_eq_getElem?_getD,
    List.getElem?_append_left (by simp; omega),
    List.getElem?_eq_getElem (by simp; omega)]
  simp

theorem outlier_getD_last : outlier_column.getD 19801 0 = 1000000 := by
  rw [outlier_column, List.getD_eq_getElem?_getD,
    List.getElem?_append_right (by simp)]
  simp

theorem outlier_interp (j : ℕ) :
    interpolation 200 1000000 19802 j = 200 + 999800 * (j : ℤ) / 19801 := by
  rw [interpolation]
  norm_num

/-- Pointwise residual bounds for the outlier column: every residual lies
in `[-980000, 0]`. -/
theorem outlier_resid_bounds : ∀ j < 19802,
    -980000 ≤ (residualList outlier_column).getD j 0 ∧
      (residualList outlier_column).getD j 0 ≤ 0 := by
  intro j hj
  rw [residualList_getD _ j (by rw [outlier_length]; omega),
    outlier_headD, outlier_getLastD, outlier_length, outlier_interp]
  rcases Nat.lt_or_ge j 19801 with hsmall | hbig
  · rw [outlier_getD_left hsmall]
    have hq1 : 999800 * (j : ℤ) / 19801 * 19801 ≤ 999800 * (j : ℤ) :=
      Int.ediv_mul_le _ (by norm_num)
    have hq2 : (j : ℤ) ≤ 999800 * (j : ℤ) / 19801 := by
      have h19 : (19801 : ℤ) * (j : ℤ) / 19801 = (j : ℤ) :=
        Int.mul_ediv_cancel_left _ (by norm_num)
      calc (j : ℤ) = 19801 * (j : ℤ) / 19801 := h19.symm
        _ ≤ 999800 * (j : ℤ) / 19801 :=
          Int.ediv_le_ediv (by norm_num)
            (mul_le_mul_of_nonneg_right (by norm_num) (Int.natCast_nonneg j))
    constructor <;> push_cast <;> omega
  · have hj1 : j = 19801 := by omega
    subst hj1
    rw [outlier_getD_last]
    rw [show (999800 : ℤ) * ((19801 : ℕ) : ℤ) = 999800 * 19801 by norm_num,
      Int.mul_ediv_cancel _ (by norm_num : (19801 : ℤ) ≠ 0)]
    norm_num

theorem outlier_resid_mem_bounds : ∀ r ∈ residualList outlier_column,
    -980000 ≤ r ∧ r ≤ 0 := by
  intro r hr
  rcases List.mem_iff_getElem.1 hr with ⟨j, hjlt, rfl⟩
  have hj : j < 19802 := by
    rwa [residualList_length, outlier_length] at hjlt
  have := outlier_resid_bounds j hj
  rwa [List.getD_eq_getElem _ 0 hjlt] at this

/-- The residual bit width of the outlier column is exactly 20: the residual
spread lies in `[979949, 980000]`, between `2^19` and `2^20`. -/
theorem outlier_resWidth : resWidth outlier_column = 20 := by
  have hne : outlier_column ≠ [] := by
    intro h
    have := outlier_length
    rw [h] at this
    simp at this
  have hlen0 : 0 < (residualList outlier_column).length := by
    rw [residualList_length, outlier_length]; omega
  have hlenb : 19800 < (residualList outlier_column).length := by
    rw [residualList_length, outlier_length]; omega
  have h0mem : (residualList outlier_column).getD 0 0 ∈ residualList outlier_column := by
    rw [List.getD_eq_getElem _ 0 hlen0]
    exact List.getElem_mem _
  have hbmem : (residualList outlier_column).getD 19800 0 ∈ residualList outlier_column := by
    rw [List.getD_eq_getElem _ 0 hlenb]
    exact List.getElem_mem _
  have h00 : (residualList outlier_column).getD 0 0 = 0 := by
    rw [residualList_getD _ 0 (by rw [outlier_length]; omega),
      outlier_headD, outlier_getLastD, outlier_length, outlier_interp,
      outlier_getD_left (by omega)]
    norm_num
  have hbval : (residualList outlier_column).getD 19800 0 = -979949 := by
    rw [residualList_getD _ 19800 (by rw [outlier_length]; omega),
      outlier_headD, outlier_getLastD, outlier_length, outlier_interp,
      outlier_getD_left (by omega)]
    rw [show (999800 : ℤ) * ((19800 : ℕ) : ℤ) / 19801 = 999749 by decide]
    norm_num
  have hmaxge : (0 : ℤ) ≤ resMax outlier_column := h00 ▸ mem_le_resMax h0mem
  have hmaxle : resMax outlier_column ≤ 0 :=
    resMax_le (fun r hr => (outlier_resid_mem_bounds r hr).2) hne
  have hminle : resMin outlier_column ≤ -979949 := hbval ▸ resMin_le_mem hbmem
  have hminge : (-980000 : ℤ) ≤ resMin outlier_column :=
    le_resMin (fun r hr => (outlier_resid_mem_bounds r hr).1) hne
  rw [resWidth]
  have hub : (resMax outlier_column - resMin outlier_column).toNat < 2 ^ 20 := by
    have : (2 : ℕ) ^ 20 = 1048576 := by norm_num
    omega
  have hlb : ¬ (resMax outlier_column - resMin outlier_column).toNat < 2 ^ 19 := by
    have : (2 : ℕ) ^ 19 = 524288 := by norm_num
    omega
  have h1 : bitWidth (resMax outlier_column - resMin outlier_column).toNat ≤ 20 :=
    (bitWidth_le_iff _ 20).2 hub
  have h2 : ¬ bitWidth (resMax outlier_column - resMin outlier_column).toNat ≤ 19 :=
    fun hle => hlb ((bitWidth_le_iff _ 19).1 hle)
  omega

/-- Claim C7: for `200..=20000` followed by a single `1_000_000`, the
bit-packing estimate is at most 0.32, at most the linear-interpolation
estimate, which is at most 0.35. -/
theorem c7_outlier_estimates :
    BitpackedFastFieldCodec.estimate outlier_column ≤ 32 / 100 ∧
    BitpackedFastFieldCodec.estimate outlier_column ≤
      LinearInterpolCodec.estimate outlier_column ∧
    LinearInterpolCodec.estimate outlier_column ≤ 35 / 100 := by
  have hmin : (stats_from_vec outlier_column).min_value = 200 := by
    refine stats_min_eq ?_ ?_
    · exact List.mem_append_left _ (by simp [List.mem_range'_1])
    · intro v hv
      rcases List.mem_append.1 hv with hv | hv
      · exact (List.mem_range'_1.1 hv).1
      · simp at hv
        omega
  have hmax : (stats_from_vec outlier_column).max_value = 1000000 := by
    refine stats_max_eq ?_ ?_
    · exact List.mem_append_right _ (by simp)
    · intro v hv
      rcases List.mem_append.1 hv with hv | hv
      · have := (List.mem_range'_1.1 hv).2
        omega
      · simp at hv
        omega
  have hbw : bitWidth (1000000 - 200) = 20 := by decide
  rw [BitpackedFastFieldCodec.estimate, LinearInterpolCodec.estimate,
    hmin, hmax, hbw, outlier_resWidth]
  norm_num
